import Mathlib

/-!
Verification of the GPUQT Hamiltonian / Chebyshev-recursion core.

The CUDA kernels of `hamiltonian.cu` are shallowly embedded over exact
rationals: every device buffer (`real*` array) becomes a function `ℕ → ℚ`
(the real and imaginary channels of a state vector are two such functions,
exactly as in the source), the lattice-operator descriptor becomes the
structure `Ham`, and each `__global__` kernel becomes a function that
computes the per-site body for sites `n < number_of_atoms` and leaves every
other index of the written buffers unchanged, mirroring the `if (n <
number_of_atoms)` thread guard.  Per-site loop bodies are translated
line by line as `List.foldl` over `List.range (neighbor_number n)`.
-/

namespace GpuQt

/-- Complex multiplication on pairs of rationals (real part, imaginary part). -/
def cmul (u v : ℚ × ℚ) : ℚ × ℚ :=
  (u.1 * v.1 - u.2 * v.2, u.1 * v.2 + u.2 * v.1)

/-- Complex conjugation on pairs of rationals. -/
def cconj (u : ℚ × ℚ) : ℚ × ℚ := (u.1, -u.2)

/-- Division of a complex pair by a real (rational) scalar, componentwise. -/
def cdivr (u : ℚ × ℚ) (e : ℚ) : ℚ × ℚ := (u.1 / e, u.2 / e)

/-- Rotation by the imaginary unit in the convention of the spec:
the rotated value has real part the imaginary part of the input and
imaginary part the negated real part of the input (multiplication by `-i`). -/
def crot (u : ℚ × ℚ) : ℚ × ℚ := (u.2, -u.1)

/-- The lattice-operator descriptor held by `Hamiltonian`: site count,
spectral bound, padded neighbor table, complex hopping amplitudes stored as
two real arrays, onsite potential, and the per-edge position weights `xx`.
All flat arrays are modelled as total functions on indices. -/
structure Ham where
  number_of_atoms : ℕ
  energy_max : ℚ
  neighbor_number : ℕ → ℕ
  neighbor_list : ℕ → ℕ
  potential : ℕ → ℚ
  hopping_real : ℕ → ℚ
  hopping_imag : ℕ → ℚ
  xx : ℕ → ℚ

/-- The neighbor site stored in slot `m` for site `n`
(`g_neighbor_list[m * number_of_atoms + n]`). -/
def nbr (H : Ham) (m n : ℕ) : ℕ :=
  H.neighbor_list (m * H.number_of_atoms + n)

/-- The complex hopping amplitude stored in slot `m` for site `n`
(`g_hopping_real/imag[m * number_of_atoms + n]`). -/
def hop (H : Ham) (m n : ℕ) : ℚ × ℚ :=
  (H.hopping_real (m * H.number_of_atoms + n),
   H.hopping_imag (m * H.number_of_atoms + n))

/-- The position weight stored in slot `m` for site `n`
(`g_xx[m * number_of_atoms + n]`). -/
def xxAt (H : Ham) (m n : ℕ) : ℚ :=
  H.xx (m * H.number_of_atoms + n)

/-- The complex value of a two-channel state at a site. -/
def stateAt (vR vI : ℕ → ℚ) (i : ℕ) : ℚ × ℚ := (vR i, vI i)

/-- Body of `gpu_apply_hamiltonian` for one thread `n < number_of_atoms`:
onsite term, hopping accumulation over the neighbor slots, then the
division by `energy_max`. -/
def applySite (H : Ham) (inR inI : ℕ → ℚ) (n : ℕ) : ℚ × ℚ :=
  let temp := (List.range (H.neighbor_number n)).foldl
    (fun temp m =>
      let index_1 := m * H.number_of_atoms + n
      let index_2 := H.neighbor_list index_1
      let a := H.hopping_real index_1
      let b := H.hopping_imag index_1
      let c := inR index_2
      let d := inI index_2
      (temp.1 + (a * c - b * d), temp.2 + (a * d + b * c)))
    (H.potential n * inR n, H.potential n * inI n)
  (temp.1 / H.energy_max, temp.2 / H.energy_max)

/-- The kernel `gpu_apply_hamiltonian`: each site below `number_of_atoms`
receives the per-site body, every other index of the output buffers is
untouched. -/
def gpu_apply_hamiltonian (H : Ham) (inR inI outR outI : ℕ → ℚ) :
    (ℕ → ℚ) × (ℕ → ℚ) :=
  (fun n => if n < H.number_of_atoms then (applySite H inR inI n).1 else outR n,
   fun n => if n < H.number_of_atoms then (applySite H inR inI n).2 else outI n)

/-- The value the spec ascribes to `apply` at a site: onsite potential times
the input there, plus the complex multiply-accumulate over the first
`neighbor_number` slots, all divided by `energy_max`. -/
def applySpec (H : Ham) (inR inI : ℕ → ℚ) (i : ℕ) : ℚ × ℚ :=
  cdivr
    (cmul (H.potential i, 0) (stateAt inR inI i) +
      ∑ k ∈ Finset.range (H.neighbor_number i),
        cmul (hop H k i) (stateAt inR inI (nbr H k i)))
    H.energy_max

lemma foldl_range_pair (f g : ℕ → ℚ) (x y : ℚ) (k : ℕ) :
    (List.range k).foldl (fun t m => (t.1 + f m, t.2 + g m)) (x, y)
      = (x + ∑ m ∈ Finset.range k, f m, y + ∑ m ∈ Finset.range k, g m) := by
  induction k with
  | zero => simp
  | succ k ih =>
      rw [List.range_succ, List.foldl_append, ih]
      simp [Finset.sum_range_succ, add_assoc]

lemma applySite_closed (H : Ham) (inR inI : ℕ → ℚ) (n : ℕ) :
    applySite H inR inI n =
      ((H.potential n * inR n +
          ∑ m ∈ Finset.range (H.neighbor_number n),
            (H.hopping_real (m * H.number_of_atoms + n) *
                inR (H.neighbor_list (m * H.number_of_atoms + n)) -
              H.hopping_imag (m * H.number_of_atoms + n) *
                inI (H.neighbor_list (m * H.number_of_atoms + n)))) /
        H.energy_max,
       (H.potential n * inI n +
          ∑ m ∈ Finset.range (H.neighbor_number n),
            (H.hopping_real (m * H.number_of_atoms + n) *
                inI (H.neighbor_list (m * H.number_of_atoms + n)) +
              H.hopping_imag (m * H.number_of_atoms + n) *
                inR (H.neighbor_list (m * H.number_of_atoms + n)))) /
        H.energy_max) := by
  unfold applySite
  rw [foldl_range_pair]

lemma applySite_eq_applySpec (H : Ham) (inR inI : ℕ → ℚ) (n : ℕ) :
    applySite H inR inI n = applySpec H inR inI n := by
  rw [applySite_closed]
  unfold applySpec cdivr
  refine Prod.ext ?_ ?_ <;>
    simp only [cmul, hop, nbr, stateAt, Prod.fst_add, Prod.snd_add,
      Prod.fst_sum, Prod.snd_sum, zero_mul, sub_zero, add_zero]

/-- Claim C2: for every lattice with positive site count and nonzero
`energy_max`, `gpu_apply_hamiltonian` writes at every site `n` below the
site count exactly `(potential[n] * input[n] + Σ_k hopping[k*N+n] *
input[neighbor_list[k*N+n]]) / energy_max`, the per-edge product being a
complex multiply and edge tables being addressed as `slot * N + site`. -/
theorem apply_hamiltonian_correct (H : Ham)
    (hN : 0 < H.number_of_atoms) (he : H.energy_max ≠ 0)
    (inR inI outR outI : ℕ → ℚ) (n : ℕ) (hn : n < H.number_of_atoms) :
    ((gpu_apply_hamiltonian H inR inI outR outI).1 n,
     (gpu_apply_hamiltonian H inR inI outR outI).2 n) =
      applySpec H inR inI n := by
  unfold gpu_apply_hamiltonian
  simp only [if_pos hn]
  exact applySite_eq_applySpec H inR inI n

/-- A concrete two-site chain: hopping amplitude 1 between the two sites,
zero onsite potential, `energy_max = 1`, unit position weights. -/
def chainH : Ham where
  number_of_atoms := 2
  energy_max := 1
  neighbor_number := fun i => if i < 2 then 1 else 0
  neighbor_list := fun j => if j = 0 then 1 else 0
  potential := fun _ => 0
  hopping_real := fun _ => 1
  hopping_imag := fun _ => 0
  xx := fun _ => 1

theorem apply_hamiltonian_correct_witness :
    0 < chainH.number_of_atoms ∧ chainH.energy_max ≠ 0 ∧
      ((gpu_apply_hamiltonian chainH (fun i => i) (fun _ => 1)
          (fun _ => 0) (fun _ => 0)).1 0,
       (gpu_apply_hamiltonian chainH (fun i => i) (fun _ => 1)
          (fun _ => 0) (fun _ => 0)).2 0) =
        applySpec chainH (fun i => i) (fun _ => 1) 0 :=
  ⟨by decide, by decide,
   apply_hamiltonian_correct chainH (by decide) (by decide)
     (fun i => i) (fun _ => 1) (fun _ => 0) (fun _ => 0) 0 (by decide)⟩

/-- Body of `gpu_apply_commutator` for one thread `n < number_of_atoms`:
the accumulator starts at zero, each neighbor slot subtracts the complex
hopping product weighted by the edge scalar `xx`, and the result is divided
by `energy_max`.  The onsite potential is never read. -/
def commutatorSite (H : Ham) (inR inI : ℕ → ℚ) (n : ℕ) : ℚ × ℚ :=
  let temp := (List.range (H.neighbor_number n)).foldl
    (fun temp m =>
      let index_1 := m * H.number_of_atoms + n
      let index_2 := H.neighbor_list index_1
      let a := H.hopping_real index_1
      let b := H.hopping_imag index_1
      let c := inR index_2
      let d := inI index_2
      let x := H.xx index_1
      (temp.1 - (a * c - b * d) * x, temp.2 - (a * d + b * c) * x))
    (0, 0)
  (temp.1 / H.energy_max, temp.2 / H.energy_max)

/-- The kernel `gpu_apply_commutator`, with the thread guard made explicit. -/
def gpu_apply_commutator (H : Ham) (inR inI outR outI : ℕ → ℚ) :
    (ℕ → ℚ) × (ℕ → ℚ) :=
  (fun n => if n < H.number_of_atoms then (commutatorSite H inR inI n).1 else outR n,
   fun n => if n < H.number_of_atoms then (commutatorSite H inR inI n).2 else outI n)

/-- Body of `gpu_apply_current` for one thread `n < number_of_atoms`:
the accumulator starts at zero, each neighbor slot adds the complex hopping
product weighted by the edge scalar, and the output is the accumulated sum
rotated by the imaginary unit, with no division by `energy_max`. -/
def currentSite (H : Ham) (inR inI : ℕ → ℚ) (n : ℕ) : ℚ × ℚ :=
  let temp := (List.range (H.neighbor_number n)).foldl
    (fun temp m =>
      let index_1 := m * H.number_of_atoms + n
      let index_2 := H.neighbor_list index_1
      let a := H.hopping_real index_1
      let b := H.hopping_imag index_1
      let c := inR index_2
      let d := inI index_2
      (temp.1 + (a * c - b * d) * H.xx index_1,
       temp.2 + (a * d + b * c) * H.xx index_1))
    (0, 0)
  (temp.2, -temp.1)

/-- The kernel `gpu_apply_current`, with the thread guard made explicit. -/
def gpu_apply_current (H : Ham) (inR inI outR outI : ℕ → ℚ) :
    (ℕ → ℚ) × (ℕ → ℚ) :=
  (fun n => if n < H.number_of_atoms then (currentSite H inR inI n).1 else outR n,
   fun n => if n < H.number_of_atoms then (currentSite H inR inI n).2 else outI n)

/-- The position-weighted edge sum at a site: the sum over the first
`neighbor_number` slots of hopping times the input at the stored neighbor
times the edge scalar `xx`. -/
def edgeSum (H : Ham) (inR inI : ℕ → ℚ) (i : ℕ) : ℚ × ℚ :=
  ∑ k ∈ Finset.range (H.neighbor_number i),
    xxAt H k i • cmul (hop H k i) (stateAt inR inI (nbr H k i))

/-- The value the spec ascribes to `apply_commutator` at a site. -/
def commutatorSpec (H : Ham) (inR inI : ℕ → ℚ) (i : ℕ) : ℚ × ℚ :=
  cdivr (-edgeSum H inR inI i) H.energy_max

lemma foldl_range_pair_sub (f g : ℕ → ℚ) (x y : ℚ) (k : ℕ) :
    (List.range k).foldl (fun t m => (t.1 - f m, t.2 - g m)) (x, y)
      = (x - ∑ m ∈ Finset.range k, f m, y - ∑ m ∈ Finset.range k, g m) := by
  induction k with
  | zero => simp
  | succ k ih =>
      rw [List.range_succ, List.foldl_append, ih]
      simp [Finset.sum_range_succ, sub_sub]

lemma commutatorSite_closed (H : Ham) (inR inI : ℕ → ℚ) (n : ℕ) :
    commutatorSite H inR inI n =
      ((0 - ∑ m ∈ Finset.range (H.neighbor_number n),
          (H.hopping_real (m * H.number_of_atoms + n) *
              inR (H.neighbor_list (m * H.number_of_atoms + n)) -
            H.hopping_imag (m * H.number_of_atoms + n) *
              inI (H.neighbor_list (m * H.number_of_atoms + n))) *
            H.xx (m * H.number_of_atoms + n)) / H.energy_max,
       (0 - ∑ m ∈ Finset.range (H.neighbor_number n),
          (H.hopping_real (m * H.number_of_atoms + n) *
              inI (H.neighbor_list (m * H.number_of_atoms + n)) +
            H.hopping_imag (m * H.number_of_atoms + n) *
              inR (H.neighbor_list (m * H.number_of_atoms + n))) *
            H.xx (m * H.number_of_atoms + n)) / H.energy_max) := by
  unfold commutatorSite
  rw [foldl_range_pair_sub]

lemma currentSite_closed (H : Ham) (inR inI : ℕ → ℚ) (n : ℕ) :
    currentSite H inR inI n =
      (∑ m ∈ Finset.range (H.neighbor_number n),
          (H.hopping_real (m * H.number_of_atoms + n) *
              inI (H.neighbor_list (m * H.number_of_atoms + n)) +
            H.hopping_imag (m * H.number_of_atoms + n) *
              inR (H.neighbor_list (m * H.number_of_atoms + n))) *
            H.xx (m * H.number_of_atoms + n),
       -∑ m ∈ Finset.range (H.neighbor_number n),
          (H.hopping_real (m * H.number_of_atoms + n) *
              inR (H.neighbor_list (m * H.number_of_atoms + n)) -
            H.hopping_imag (m * H.number_of_atoms + n) *
              inI (H.neighbor_list (m * H.number_of_atoms + n))) *
            H.xx (m * H.number_of_atoms + n)) := by
  unfold currentSite
  rw [foldl_range_pair]
  simp

lemma edgeSum_fst (H : Ham) (inR inI : ℕ → ℚ) (i : ℕ) :
    (edgeSum H inR inI i).1 =
      ∑ m ∈ Finset.range (H.neighbor_number i),
        (H.hopping_real (m * H.number_of_atoms + i) *
            inR (H.neighbor_list (m * H.number_of_atoms + i)) -
          H.hopping_imag (m * H.number_of_atoms + i) *
            inI (H.neighbor_list (m * H.number_of_atoms + i))) *
          H.xx (m * H.number_of_atoms + i) := by
  unfold edgeSum
  rw [Prod.fst_sum]
  refine Finset.sum_congr rfl fun m _ => ?_
  simp only [Prod.smul_fst, cmul, hop, nbr, stateAt, xxAt, smul_eq_mul]
  ring

lemma edgeSum_snd (H : Ham) (inR inI : ℕ → ℚ) (i : ℕ) :
    (edgeSum H inR inI i).2 =
      ∑ m ∈ Finset.range (H.neighbor_number i),
        (H.hopping_real (m * H.number_of_atoms + i) *
            inI (H.neighbor_list (m * H.number_of_atoms + i)) +
          H.hopping_imag (m * H.number_of_atoms + i) *
            inR (H.neighbor_list (m * H.number_of_atoms + i))) *
          H.xx (m * H.number_of_atoms + i) := by
  unfold edgeSum
  rw [Prod.snd_sum]
  refine Finset.sum_congr rfl fun m _ => ?_
  simp only [Prod.smul_snd, cmul, hop, nbr, stateAt, xxAt, smul_eq_mul]
  ring

lemma commutatorSite_eq_spec (H : Ham) (inR inI : ℕ → ℚ) (n : ℕ) :
    commutatorSite H inR inI n = commutatorSpec H inR inI n := by
  rw [commutatorSite_closed]
  unfold commutatorSpec cdivr
  refine Prod.ext ?_ ?_ <;>
    simp only [Prod.fst_neg, Prod.snd_neg, edgeSum_fst, edgeSum_snd,
      zero_sub]

/-- Claim C5: `gpu_apply_commutator` writes at every site below the site
count the value `-(Σ_k hopping[k*N+n] * input[neighbor_list[k*N+n]] *
xx[k*N+n]) / energy_max`; the onsite potential contributes nothing, and a
site with zero neighbors receives exactly zero in both channels. -/
theorem apply_commutator_correct (H : Ham)
    (hN : 0 < H.number_of_atoms) (he : H.energy_max ≠ 0)
    (inR inI outR outI : ℕ → ℚ) (n : ℕ) (hn : n < H.number_of_atoms) :
    ((gpu_apply_commutator H inR inI outR outI).1 n,
     (gpu_apply_commutator H inR inI outR outI).2 n) =
        commutatorSpec H inR inI n ∧
      (H.neighbor_number n = 0 →
        ((gpu_apply_commutator H inR inI outR outI).1 n,
         (gpu_apply_commutator H inR inI outR outI).2 n) = (0, 0)) := by
  unfold gpu_apply_commutator
  simp only [if_pos hn]
  refine ⟨commutatorSite_eq_spec H inR inI n, fun h0 => ?_⟩
  rw [commutatorSite_closed]
  simp [h0]

theorem apply_commutator_correct_witness :
    0 < chainH.number_of_atoms ∧ chainH.energy_max ≠ 0 ∧
      ((gpu_apply_commutator chainH (fun i => i) (fun _ => 1)
          (fun _ => 0) (fun _ => 0)).1 0,
       (gpu_apply_commutator chainH (fun i => i) (fun _ => 1)
          (fun _ => 0) (fun _ => 0)).2 0) =
        commutatorSpec chainH (fun i => i) (fun _ => 1) 0 :=
  ⟨by decide, by decide,
   (apply_commutator_correct chainH (by decide) (by decide)
     (fun i => i) (fun _ => 1) (fun _ => 0) (fun _ => 0) 0 (by decide)).1⟩

/-- Claim C6: `gpu_apply_current` computes at every site below the site
count the complex edge sum `S = Σ_k hopping[k*N+n] *
input[neighbor_list[k*N+n]] * xx[k*N+n]` and writes the real output channel
as the imaginary part of `S` and the imaginary output channel as the
negated real part of `S`, with no division by `energy_max` anywhere. -/
theorem apply_current_correct (H : Ham)
    (hN : 0 < H.number_of_atoms)
    (inR inI outR outI : ℕ → ℚ) (n : ℕ) (hn : n < H.number_of_atoms) :
    ((gpu_apply_current H inR inI outR outI).1 n,
     (gpu_apply_current H inR inI outR outI).2 n) =
      crot (edgeSum H inR inI n) := by
  unfold gpu_apply_current
  simp only [if_pos hn]
  rw [currentSite_closed]
  unfold crot
  rw [edgeSum_fst, edgeSum_snd]

theorem apply_current_correct_witness :
    0 < chainH.number_of_atoms ∧
      ((gpu_apply_current chainH (fun i => i) (fun _ => 1)
          (fun _ => 0) (fun _ => 0)).1 0,
       (gpu_apply_current chainH (fun i => i) (fun _ => 1)
          (fun _ => 0) (fun _ => 0)).2 0) =
        crot (edgeSum chainH (fun i => i) (fun _ => 1) 0) :=
  ⟨by decide,
   apply_current_correct chainH (by decide)
     (fun i => i) (fun _ => 1) (fun _ => 0) (fun _ => 0) 0 (by decide)⟩

/-- Claim C7: with nonzero `energy_max`, `apply_current` applied to any
input equals `energy_max` times the 90-degree rotation of the negated
`apply_commutator` output on the same input, exactly, at every site below
the site count (the rotation sending `z` to a value with real part the
imaginary part of `z` and imaginary part the negated real part of `z`). -/
theorem current_commutator_identity (H : Ham) (he : H.energy_max ≠ 0)
    (inR inI outR outI outR2 outI2 : ℕ → ℚ) (n : ℕ)
    (hn : n < H.number_of_atoms) :
    ((gpu_apply_current H inR inI outR outI).1 n,
     (gpu_apply_current H inR inI outR outI).2 n) =
      H.energy_max •
        crot (-((gpu_apply_commutator H inR inI outR2 outI2).1 n,
                (gpu_apply_commutator H inR inI outR2 outI2).2 n)) := by
  unfold gpu_apply_current gpu_apply_commutator
  simp only [if_pos hn]
  rw [currentSite_closed, commutatorSite_closed]
  unfold crot
  simp only [Prod.fst_neg, Prod.snd_neg, Prod.smul_mk, smul_eq_mul,
    neg_neg, zero_sub, Prod.mk.injEq]
  constructor <;> field_simp <;> ring

theorem current_commutator_identity_witness :
    chainH.energy_max ≠ 0 ∧
      ((gpu_apply_current chainH (fun i => i) (fun _ => 1)
          (fun _ => 0) (fun _ => 0)).1 0,
       (gpu_apply_current chainH (fun i => i) (fun _ => 1)
          (fun _ => 0) (fun _ => 0)).2 0) =
        chainH.energy_max •
          crot (-((gpu_apply_commutator chainH (fun i => i) (fun _ => 1)
                    (fun _ => 1) (fun _ => 1)).1 0,
                  (gpu_apply_commutator chainH (fun i => i) (fun _ => 1)
                    (fun _ => 1) (fun _ => 1)).2 0)) :=
  ⟨by decide,
   current_commutator_identity chainH (by decide)
     (fun i => i) (fun _ => 1) (fun _ => 0) (fun _ => 0)
     (fun _ => 1) (fun _ => 1) 0 (by decide)⟩

/-- Body of `gpu_chebyshev_01` for one thread `n < number_of_atoms`: the
accumulator is overwritten from the closed-form order-0/order-1
contributions.  No operator data appears: the kernel receives only the site
count, the two input states and the coefficients. -/
def cheb01Site (s0R s0I s1R s1I : ℕ → ℚ) (b0 b1 : ℚ) (direction : ℤ)
    (n : ℕ) : ℚ × ℚ :=
  let bessel_0 := b0
  let bessel_1 := b1 * (direction : ℚ)
  (bessel_0 * s0R n + bessel_1 * s1I n,
   bessel_0 * s0I n - bessel_1 * s1R n)

/-- The kernel `gpu_chebyshev_01`, with the thread guard made explicit. -/
def gpu_chebyshev_01 (number_of_atoms : ℕ) (s0R s0I s1R s1I stR stI : ℕ → ℚ)
    (b0 b1 : ℚ) (direction : ℤ) : (ℕ → ℚ) × (ℕ → ℚ) :=
  (fun n => if n < number_of_atoms then (cheb01Site s0R s0I s1R s1I b0 b1 direction n).1 else stR n,
   fun n => if n < number_of_atoms then (cheb01Site s0R s0I s1R s1I b0 b1 direction n).2 else stI n)

/-- Claim C9: the seed step overwrites the accumulator at every site below
the site count with real channel `bessel_0 * state_0_real + direction *
bessel_1 * state_1_imag` and imaginary channel `bessel_0 * state_0_imag -
direction * bessel_1 * state_1_real`; the previous accumulator contents
`stR`, `stI` do not appear in the written value (they are universally
quantified and absent from the right-hand sides), and the kernel reads no
operator data (it is not even passed a `Ham`). -/
theorem chebyshev_01_correct (number_of_atoms : ℕ)
    (hN : 0 < number_of_atoms)
    (s0R s0I s1R s1I stR stI : ℕ → ℚ) (b0 b1 : ℚ) (direction : ℤ)
    (n : ℕ) (hn : n < number_of_atoms) :
    (gpu_chebyshev_01 number_of_atoms s0R s0I s1R s1I stR stI b0 b1 direction).1 n
        = b0 * s0R n + (direction : ℚ) * b1 * s1I n ∧
      (gpu_chebyshev_01 number_of_atoms s0R s0I s1R s1I stR stI b0 b1 direction).2 n
        = b0 * s0I n - (direction : ℚ) * b1 * s1R n := by
  unfold gpu_chebyshev_01 cheb01Site
  simp only [if_pos hn]
  constructor <;> ring

theorem chebyshev_01_correct_witness :
    0 < 2 ∧
      (gpu_chebyshev_01 2 (fun i => i) (fun _ => 1) (fun _ => 2) (fun i => 3 * i)
          (fun _ => 7) (fun _ => 9) 5 4 (-1)).1 1
          = 5 * 1 + (-1 : ℤ) * 4 * (3 * 1) ∧
      (gpu_chebyshev_01 2 (fun i => i) (fun _ => 1) (fun _ => 2) (fun i => 3 * i)
          (fun _ => 7) (fun _ => 9) 5 4 (-1)).2 1
          = 5 * 1 - (-1 : ℤ) * 4 * 2 :=
  ⟨by decide,
   chebyshev_01_correct 2 (by decide) (fun i => i) (fun _ => 1) (fun _ => 2)
     (fun i => 3 * i) (fun _ => 7) (fun _ => 9) 5 4 (-1) 1 (by decide)⟩

/-- The four-way phase-routed accumulator update shared by `gpu_chebyshev_2`
and `gpu_chebyshev_2x` (the `switch (label)` statement): labels 1 and 2 add
and subtract `bessel_m` times the term, labels 3 and 4 add and subtract its
90-degree-rotated form, and any other label leaves the accumulator
unchanged (the switch has no default branch). -/
def routeAcc (label : ℤ) (bessel_m tR tI accR accI : ℚ) : ℚ × ℚ :=
  if label = 1 then (accR + bessel_m * tR, accI + bessel_m * tI)
  else if label = 2 then (accR - bessel_m * tR, accI - bessel_m * tI)
  else if label = 3 then (accR + bessel_m * tI, accI - bessel_m * tR)
  else if label = 4 then (accR - bessel_m * tI, accI + bessel_m * tR)
  else (accR, accI)

/-- Body of `gpu_chebyshev_2` for one thread `n < number_of_atoms`:
the same onsite-plus-hopping accumulation as `gpu_apply_hamiltonian`
applied to `state_1`, scaled by `energy_max`, then the three-term update
against `state_0`, then the phase-routed accumulation.  Returns the written
`state_2` value and the updated accumulator value. -/
def cheb2Site (H : Ham) (s0R s0I s1R s1I stR stI : ℕ → ℚ)
    (bessel_m : ℚ) (label : ℤ) (n : ℕ) : (ℚ × ℚ) × (ℚ × ℚ) :=
  let temp := (List.range (H.neighbor_number n)).foldl
    (fun temp m =>
      let index_1 := m * H.number_of_atoms + n
      let index_2 := H.neighbor_list index_1
      let a := H.hopping_real index_1
      let b := H.hopping_imag index_1
      let c := s1R index_2
      let d := s1I index_2
      (temp.1 + (a * c - b * d), temp.2 + (a * d + b * c)))
    (H.potential n * s1R n, H.potential n * s1I n)
  let temp_real := temp.1 / H.energy_max
  let temp_imag := temp.2 / H.energy_max
  let temp_real := 2 * temp_real - s0R n
  let temp_imag := 2 * temp_imag - s0I n
  ((temp_real, temp_imag),
   routeAcc label bessel_m temp_real temp_imag (stR n) (stI n))

/-- The kernel `gpu_chebyshev_2`, with the thread guard made explicit:
returns the updated `state_2` real and imaginary buffers followed by the
updated accumulator real and imaginary buffers; `state_0` and `state_1`
are only read. -/
def gpu_chebyshev_2 (H : Ham) (s0R s0I s1R s1I s2R s2I stR stI : ℕ → ℚ)
    (bessel_m : ℚ) (label : ℤ) :
    (ℕ → ℚ) × (ℕ → ℚ) × (ℕ → ℚ) × (ℕ → ℚ) :=
  (fun n => if n < H.number_of_atoms then (cheb2Site H s0R s0I s1R s1I stR stI bessel_m label n).1.1 else s2R n,
   fun n => if n < H.number_of_atoms then (cheb2Site H s0R s0I s1R s1I stR stI bessel_m label n).1.2 else s2I n,
   fun n => if n < H.number_of_atoms then (cheb2Site H s0R s0I s1R s1I stR stI bessel_m label n).2.1 else stR n,
   fun n => if n < H.number_of_atoms then (cheb2Site H s0R s0I s1R s1I stR stI bessel_m label n).2.2 else stI n)

/-- Claim C1: at every site below the site count the bulk Chebyshev step
writes `state_2 = 2 * apply(state_1) - state_0` componentwise, and updates
the accumulator elementwise by the phase-routed term: label 1 adds
`bessel_m * state_2`, label 2 subtracts it, label 3 adds its
90-degree-rotated form (real channel gains `bessel_m` times the imaginary
part of `state_2`, imaginary channel loses `bessel_m` times its real
part), and label 4 subtracts that rotated form. -/
theorem chebyshev_2_step_correct (H : Ham) (hN : 0 < H.number_of_atoms)
    (s0R s0I s1R s1I s2R s2I stR stI : ℕ → ℚ) (bessel_m : ℚ) (label : ℤ)
    (n : ℕ) (hn : n < H.number_of_atoms) :
    (gpu_chebyshev_2 H s0R s0I s1R s1I s2R s2I stR stI bessel_m label).1 n
        = 2 * (applySite H s1R s1I n).1 - s0R n ∧
      (gpu_chebyshev_2 H s0R s0I s1R s1I s2R s2I stR stI bessel_m label).2.1 n
        = 2 * (applySite H s1R s1I n).2 - s0I n ∧
      (label = 1 →
        (gpu_chebyshev_2 H s0R s0I s1R s1I s2R s2I stR stI bessel_m label).2.2.1 n
            = stR n + bessel_m *
              (gpu_chebyshev_2 H s0R s0I s1R s1I s2R s2I stR stI bessel_m label).1 n ∧
          (gpu_chebyshev_2 H s0R s0I s1R s1I s2R s2I stR stI bessel_m label).2.2.2 n
            = stI n + bessel_m *
              (gpu_chebyshev_2 H s0R s0I s1R s1I s2R s2I stR stI bessel_m label).2.1 n) ∧
      (label = 2 →
        (gpu_chebyshev_2 H s0R s0I s1R s1I s2R s2I stR stI bessel_m label).2.2.1 n
            = stR n - bessel_m *
              (gpu_chebyshev_2 H s0R s0I s1R s1I s2R s2I stR stI bessel_m label).1 n ∧
          (gpu_chebyshev_2 H s0R s0I s1R s1I s2R s2I stR stI bessel_m label).2.2.2 n
            = stI n - bessel_m *
              (gpu_chebyshev_2 H s0R s0I s1R s1I s2R s2I stR stI bessel_m label).2.1 n) ∧
      (label = 3 →
        (gpu_chebyshev_2 H s0R s0I s1R s1I s2R s2I stR stI bessel_m label).2.2.1 n
            = stR n + bessel_m *
              (gpu_chebyshev_2 H s0R s0I s1R s1I s2R s2I stR stI bessel_m label).2.1 n ∧
          (gpu_chebyshev_2 H s0R s0I s1R s1I s2R s2I stR stI bessel_m label).2.2.2 n
            = stI n - bessel_m *
              (gpu_chebyshev_2 H s0R s0I s1R s1I s2R s2I stR stI bessel_m label).1 n) ∧
      (label = 4 →
        (gpu_chebyshev_2 H s0R s0I s1R s1I s2R s2I stR stI bessel_m label).2.2.1 n
            = stR n - bessel_m *
              (gpu_chebyshev_2 H s0R s0I s1R s1I s2R s2I stR stI bessel_m label).2.1 n ∧
          (gpu_chebyshev_2 H s0R s0I s1R s1I s2R s2I stR stI bessel_m label).2.2.2 n
            = stI n + bessel_m *
              (gpu_chebyshev_2 H s0R s0I s1R s1I s2R s2I stR stI bessel_m label).1 n) := by
  unfold gpu_chebyshev_2 cheb2Site applySite
  simp only [if_pos hn]
  refine ⟨by ring, by ring, ?_, ?_, ?_, ?_⟩ <;>
    · rintro rfl
      simp only [routeAcc]
      norm_num

theorem chebyshev_2_step_correct_witness :
    0 < chainH.number_of_atoms ∧
      ((gpu_chebyshev_2 chainH (fun _ => 1) (fun _ => 0) (fun i => i) (fun _ => 2)
          (fun _ => 0) (fun _ => 0) (fun _ => 10) (fun _ => 20) 6 3).1 0
          = 2 * (applySite chainH (fun i => i) (fun _ => 2) 0).1 - 1 ∧
        (gpu_chebyshev_2 chainH (fun _ => 1) (fun _ => 0) (fun i => i) (fun _ => 2)
          (fun _ => 0) (fun _ => 0) (fun _ => 10) (fun _ => 20) 6 3).2.1 0
          = 2 * (applySite chainH (fun i => i) (fun _ => 2) 0).2 - 0 ∧
        ((3 : ℤ) = 1 →
          (gpu_chebyshev_2 chainH (fun _ => 1) (fun _ => 0) (fun i => i) (fun _ => 2)
            (fun _ => 0) (fun _ => 0) (fun _ => 10) (fun _ => 20) 6 3).2.2.1 0
              = 10 + 6 *
                (gpu_chebyshev_2 chainH (fun _ => 1) (fun _ => 0) (fun i => i) (fun _ => 2)
                  (fun _ => 0) (fun _ => 0) (fun _ => 10) (fun _ => 20) 6 3).1 0 ∧
            (gpu_chebyshev_2 chainH (fun _ => 1) (fun _ => 0) (fun i => i) (fun _ => 2)
              (fun _ => 0) (fun _ => 0) (fun _ => 10) (fun _ => 20) 6 3).2.2.2 0
              = 20 + 6 *
                (gpu_chebyshev_2 chainH (fun _ => 1) (fun _ => 0) (fun i => i) (fun _ => 2)
                  (fun _ => 0) (fun _ => 0) (fun _ => 10) (fun _ => 20) 6 3).2.1 0) ∧
        ((3 : ℤ) = 2 →
          (gpu_chebyshev_2 chainH (fun _ => 1) (fun _ => 0) (fun i => i) (fun _ => 2)
            (fun _ => 0) (fun _ => 0) (fun _ => 10) (fun _ => 20) 6 3).2.2.1 0
              = 10 - 6 *
                (gpu_chebyshev_2 chainH (fun _ => 1) (fun _ => 0) (fun i => i) (fun _ => 2)
                  (fun _ => 0) (fun _ => 0) (fun _ => 10) (fun _ => 20) 6 3).1 0 ∧
            (gpu_chebyshev_2 chainH (fun _ => 1) (fun _ => 0) (fun i => i) (fun _ => 2)
              (fun _ => 0) (fun _ => 0) (fun _ => 10) (fun _ => 20) 6 3).2.2.2 0
              = 20 - 6 *
                (gpu_chebyshev_2 chainH (fun _ => 1) (fun _ => 0) (fun i => i) (fun _ => 2)
                  (fun _ => 0) (fun _ => 0) (fun _ => 10) (fun _ => 20) 6 3).2.1 0) ∧
        ((3 : ℤ) = 3 →
          (gpu_chebyshev_2 chainH (fun _ => 1) (fun _ => 0) (fun i => i) (fun _ => 2)
            (fun _ => 0) (fun _ => 0) (fun _ => 10) (fun _ => 20) 6 3).2.2.1 0
              = 10 + 6 *
                (gpu_chebyshev_2 chainH (fun _ => 1) (fun _ => 0) (fun i => i) (fun _ => 2)
                  (fun _ => 0) (fun _ => 0) (fun _ => 10) (fun _ => 20) 6 3).2.1 0 ∧
            (gpu_chebyshev_2 chainH (fun _ => 1) (fun _ => 0) (fun i => i) (fun _ => 2)
              (fun _ => 0) (fun _ => 0) (fun _ => 10) (fun _ => 20) 6 3).2.2.2 0
              = 20 - 6 *
                (gpu_chebyshev_2 chainH (fun _ => 1) (fun _ => 0) (fun i => i) (fun _ => 2)
                  (fun _ => 0) (fun _ => 0) (fun _ => 10) (fun _ => 20) 6 3).1 0) ∧
        ((3 : ℤ) = 4 →
          (gpu_chebyshev_2 chainH (fun _ => 1) (fun _ => 0) (fun i => i) (fun _ => 2)
            (fun _ => 0) (fun _ => 0) (fun _ => 10) (fun _ => 20) 6 3).2.2.1 0
              = 10 - 6 *
                (gpu_chebyshev_2 chainH (fun _ => 1) (fun _ => 0) (fun i => i) (fun _ => 2)
                  (fun _ => 0) (fun _ => 0) (fun _ => 10) (fun _ => 20) 6 3).2.1 0 ∧
            (gpu_chebyshev_2 chainH (fun _ => 1) (fun _ => 0) (fun i => i) (fun _ => 2)
              (fun _ => 0) (fun _ => 0) (fun _ => 10) (fun _ => 20) 6 3).2.2.2 0
              = 20 + 6 *
                (gpu_chebyshev_2 chainH (fun _ => 1) (fun _ => 0) (fun i => i) (fun _ => 2)
                  (fun _ => 0) (fun _ => 0) (fun _ => 10) (fun _ => 20) 6 3).1 0)) :=
  ⟨by decide,
   chebyshev_2_step_correct chainH (by decide) (fun _ => 1) (fun _ => 0)
     (fun i => i) (fun _ => 2) (fun _ => 0) (fun _ => 0) (fun _ => 10)
     (fun _ => 20) 6 3 0 (by decide)⟩

/-- Body of `gpu_kernel_polynomial` for one thread `n < number_of_atoms`:
the same three-term recurrence as the bulk step, with no accumulation and
no label; only the `state_2` value is produced. -/
def kpSite (H : Ham) (s0R s0I s1R s1I : ℕ → ℚ) (n : ℕ) : ℚ × ℚ :=
  let temp := (List.range (H.neighbor_number n)).foldl
    (fun temp m =>
      let index_1 := m * H.number_of_atoms + n
      let index_2 := H.neighbor_list index_1
      let a := H.hopping_real index_1
      let b := H.hopping_imag index_1
      let c := s1R index_2
      let d := s1I index_2
      (temp.1 + (a * c - b * d), temp.2 + (a * d + b * c)))
    (H.potential n * s1R n, H.potential n * s1I n)
  let temp_real := temp.1 / H.energy_max
  let temp_imag := temp.2 / H.energy_max
  (2 * temp_real - s0R n, 2 * temp_imag - s0I n)

/-- The kernel `gpu_kernel_polynomial`: the only buffers it writes are the
two channels of `state_2` (it receives no accumulator at all), mirroring
the source kernel whose only output pointers are `g_state_2_real` and
`g_state_2_imag`. -/
def gpu_kernel_polynomial (H : Ham) (s0R s0I s1R s1I s2R s2I : ℕ → ℚ) :
    (ℕ → ℚ) × (ℕ → ℚ) :=
  (fun n => if n < H.number_of_atoms then (kpSite H s0R s0I s1R s1I n).1 else s2R n,
   fun n => if n < H.number_of_atoms then (kpSite H s0R s0I s1R s1I n).2 else s2I n)

/-- Claim C3: the bare recursion writes, at every site below the site
count, `state_2 = 2 * apply(state_1) - state_0` componentwise, and its
`state_2` output buffers are elementwise identical (at every index) to the
`state_2` buffers produced by `gpu_chebyshev_2` on the same `state_0`,
`state_1` and previous `state_2` contents, for every accumulator,
coefficient and label; it writes no buffer other than `state_2` (its
embedding returns only the two `state_2` channels, as the source kernel
has no other output pointer). -/
theorem kernel_polynomial_correct (H : Ham) (s0R s0I s1R s1I s2R s2I : ℕ → ℚ) :
    (∀ n, n < H.number_of_atoms →
      (gpu_kernel_polynomial H s0R s0I s1R s1I s2R s2I).1 n
          = 2 * (applySite H s1R s1I n).1 - s0R n ∧
        (gpu_kernel_polynomial H s0R s0I s1R s1I s2R s2I).2 n
          = 2 * (applySite H s1R s1I n).2 - s0I n) ∧
    (∀ (stR stI : ℕ → ℚ) (bessel_m : ℚ) (label : ℤ),
      (gpu_chebyshev_2 H s0R s0I s1R s1I s2R s2I stR stI bessel_m label).1
          = (gpu_kernel_polynomial H s0R s0I s1R s1I s2R s2I).1 ∧
        (gpu_chebyshev_2 H s0R s0I s1R s1I s2R s2I stR stI bessel_m label).2.1
          = (gpu_kernel_polynomial H s0R s0I s1R s1I s2R s2I).2) := by
  constructor
  · intro n hn
    unfold gpu_kernel_polynomial kpSite applySite
    simp only [if_pos hn]
    exact ⟨by ring, by ring⟩
  · intro stR stI bessel_m label
    constructor <;> rfl

theorem kernel_polynomial_correct_witness :
    (0 : ℕ) < chainH.number_of_atoms ∧
      ((gpu_kernel_polynomial chainH (fun _ => 1) (fun _ => 0) (fun i => i)
          (fun _ => 2) (fun _ => 5) (fun _ => 7)).1 0
          = 2 * (applySite chainH (fun i => i) (fun _ => 2) 0).1 - 1 ∧
        (gpu_kernel_polynomial chainH (fun _ => 1) (fun _ => 0) (fun i => i)
          (fun _ => 2) (fun _ => 5) (fun _ => 7)).2 0
          = 2 * (applySite chainH (fun i => i) (fun _ => 2) 0).2 - 0) ∧
      ((gpu_chebyshev_2 chainH (fun _ => 1) (fun _ => 0) (fun i => i) (fun _ => 2)
          (fun _ => 5) (fun _ => 7) (fun _ => 10) (fun _ => 20) 6 1).1
          = (gpu_kernel_polynomial chainH (fun _ => 1) (fun _ => 0) (fun i => i)
              (fun _ => 2) (fun _ => 5) (fun _ => 7)).1 ∧
        (gpu_chebyshev_2 chainH (fun _ => 1) (fun _ => 0) (fun i => i) (fun _ => 2)
          (fun _ => 5) (fun _ => 7) (fun _ => 10) (fun _ => 20) 6 1).2.1
          = (gpu_kernel_polynomial chainH (fun _ => 1) (fun _ => 0) (fun i => i)
              (fun _ => 2) (fun _ => 5) (fun _ => 7)).2) :=
  ⟨by decide,
   ((kernel_polynomial_correct chainH (fun _ => 1) (fun _ => 0) (fun i => i)
       (fun _ => 2) (fun _ => 5) (fun _ => 7)).1 0 (by decide)),
   ((kernel_polynomial_correct chainH (fun _ => 1) (fun _ => 0) (fun i => i)
       (fun _ => 2) (fun _ => 5) (fun _ => 7)).2 (fun _ => 10) (fun _ => 20) 6 1)⟩

lemma foldl_range_quad (f g p p2 q q2 : ℕ → ℚ) (x y z w : ℚ) (k : ℕ) :
    (List.range k).foldl
      (fun t m => (t.1 + f m, t.2.1 + g m,
        t.2.2.1 + p m - p2 m, t.2.2.2 + q m - q2 m))
      (x, y, z, w)
      = (x + ∑ m ∈ Finset.range k, f m,
         y + ∑ m ∈ Finset.range k, g m,
         z + ∑ m ∈ Finset.range k, p m - ∑ m ∈ Finset.range k, p2 m,
         w + ∑ m ∈ Finset.range k, q m - ∑ m ∈ Finset.range k, q2 m) := by
  induction k with
  | zero => simp
  | succ k ih =>
      rw [List.range_succ, List.foldl_append, ih]
      simp only [List.foldl_cons, List.foldl_nil, Finset.sum_range_succ,
        Prod.mk.injEq]
      refine ⟨by ring, by ring, by ring, by ring⟩

/-- Body of `gpu_chebyshev_2x` for one thread `n < number_of_atoms`: the
plain sequence is advanced exactly as in the bulk step, the shadow sequence
additionally subtracts the position-weighted hopping contribution of
`state_1` inside the same loop, and only the shadow term enters the
phase-routed accumulation.  Returns the written `state_2` value, the
written `state_2x` value, and the updated accumulator value. -/
def cheb2xSite (H : Ham)
    (s0R s0I s0xR s0xI s1R s1I s1xR s1xI stR stI : ℕ → ℚ)
    (bessel_m : ℚ) (label : ℤ) (n : ℕ) : (ℚ × ℚ) × (ℚ × ℚ) × (ℚ × ℚ) :=
  let temp := (List.range (H.neighbor_number n)).foldl
    (fun temp m =>
      let index_1 := m * H.number_of_atoms + n
      let index_2 := H.neighbor_list index_1
      let a := H.hopping_real index_1
      let b := H.hopping_imag index_1
      let c := s1R index_2
      let d := s1I index_2
      let cx := s1xR index_2
      let dx := s1xI index_2
      let x := H.xx index_1
      (temp.1 + (a * c - b * d),
       temp.2.1 + (a * d + b * c),
       temp.2.2.1 + (a * cx - b * dx) - (a * c - b * d) * x,
       temp.2.2.2 + (a * dx + b * cx) - (a * d + b * c) * x))
    (H.potential n * s1R n, H.potential n * s1I n,
     H.potential n * s1xR n, H.potential n * s1xI n)
  let temp_real := 2 * (temp.1 / H.energy_max) - s0R n
  let temp_imag := 2 * (temp.2.1 / H.energy_max) - s0I n
  let temp_x_real := 2 * (temp.2.2.1 / H.energy_max) - s0xR n
  let temp_x_imag := 2 * (temp.2.2.2 / H.energy_max) - s0xI n
  ((temp_real, temp_imag), (temp_x_real, temp_x_imag),
   routeAcc label bessel_m temp_x_real temp_x_imag (stR n) (stI n))

/-- The kernel `gpu_chebyshev_2x`, with the thread guard made explicit:
returns the updated `state_2`, `state_2x` and accumulator buffers, in that
order (six channel functions). -/
def gpu_chebyshev_2x (H : Ham)
    (s0R s0I s0xR s0xI s1R s1I s1xR s1xI s2R s2I s2xR s2xI stR stI : ℕ → ℚ)
    (bessel_m : ℚ) (label : ℤ) :
    (ℕ → ℚ) × (ℕ → ℚ) × (ℕ → ℚ) × (ℕ → ℚ) × (ℕ → ℚ) × (ℕ → ℚ) :=
  (fun n => if n < H.number_of_atoms then (cheb2xSite H s0R s0I s0xR s0xI s1R s1I s1xR s1xI stR stI bessel_m label n).1.1 else s2R n,
   fun n => if n < H.number_of_atoms then (cheb2xSite H s0R s0I s0xR s0xI s1R s1I s1xR s1xI stR stI bessel_m label n).1.2 else s2I n,
   fun n => if n < H.number_of_atoms then (cheb2xSite H s0R s0I s0xR s0xI s1R s1I s1xR s1xI stR stI bessel_m label n).2.1.1 else s2xR n,
   fun n => if n < H.number_of_atoms then (cheb2xSite H s0R s0I s0xR s0xI s1R s1I s1xR s1xI stR stI bessel_m label n).2.1.2 else s2xI n,
   fun n => if n < H.number_of_atoms then (cheb2xSite H s0R s0I s0xR s0xI s1R s1I s1xR s1xI stR stI bessel_m label n).2.2.1 else stR n,
   fun n => if n < H.number_of_atoms then (cheb2xSite H s0R s0I s0xR s0xI s1R s1I s1xR s1xI stR stI bessel_m label n).2.2.2 else stI n)

/-- Claim C4: at every site below the site count the shadow step writes
`state_2 = 2 * apply(state_1) - state_0` exactly as the bulk step does,
writes `state_2x = 2 * (apply(state_1x) + apply_commutator(state_1)) -
state_0x`, and accumulates only the shadow term `bessel_m * state_2x`,
phase-routed by the label exactly as in `chebyshev_2`. -/
theorem chebyshev_2x_step_correct (H : Ham) (hN : 0 < H.number_of_atoms)
    (he : H.energy_max ≠ 0)
    (s0R s0I s0xR s0xI s1R s1I s1xR s1xI s2R s2I s2xR s2xI stR stI : ℕ → ℚ)
    (bessel_m : ℚ) (label : ℤ) (n : ℕ) (hn : n < H.number_of_atoms) :
    (gpu_chebyshev_2x H s0R s0I s0xR s0xI s1R s1I s1xR s1xI s2R s2I s2xR s2xI stR stI bessel_m label).1 n
        = 2 * (applySite H s1R s1I n).1 - s0R n ∧
      (gpu_chebyshev_2x H s0R s0I s0xR s0xI s1R s1I s1xR s1xI s2R s2I s2xR s2xI stR stI bessel_m label).2.1 n
        = 2 * (applySite H s1R s1I n).2 - s0I n ∧
      (gpu_chebyshev_2x H s0R s0I s0xR s0xI s1R s1I s1xR s1xI s2R s2I s2xR s2xI stR stI bessel_m label).2.2.1 n
        = 2 * ((applySite H s1xR s1xI n).1 + (commutatorSite H s1R s1I n).1) - s0xR n ∧
      (gpu_chebyshev_2x H s0R s0I s0xR s0xI s1R s1I s1xR s1xI s2R s2I s2xR s2xI stR stI bessel_m label).2.2.2.1 n
        = 2 * ((applySite H s1xR s1xI n).2 + (commutatorSite H s1R s1I n).2) - s0xI n ∧
      ((gpu_chebyshev_2x H s0R s0I s0xR s0xI s1R s1I s1xR s1xI s2R s2I s2xR s2xI stR stI bessel_m label).2.2.2.2.1 n,
       (gpu_chebyshev_2x H s0R s0I s0xR s0xI s1R s1I s1xR s1xI s2R s2I s2xR s2xI stR stI bessel_m label).2.2.2.2.2 n)
        = routeAcc label bessel_m
            ((gpu_chebyshev_2x H s0R s0I s0xR s0xI s1R s1I s1xR s1xI s2R s2I s2xR s2xI stR stI bessel_m label).2.2.1 n)
            ((gpu_chebyshev_2x H s0R s0I s0xR s0xI s1R s1I s1xR s1xI s2R s2I s2xR s2xI stR stI bessel_m label).2.2.2.1 n)
            (stR n) (stI n) := by
  unfold gpu_chebyshev_2x cheb2xSite
  simp only [if_pos hn]
  rw [foldl_range_quad, applySite_closed H s1R s1I n,
    applySite_closed H s1xR s1xI n, commutatorSite_closed H s1R s1I n]
  refine ⟨?_, ?_, ?_, ?_, ?_⟩ <;>
    first
      | trivial
      | (dsimp only; ring)

theorem chebyshev_2x_step_correct_witness :
    0 < chainH.number_of_atoms ∧ chainH.energy_max ≠ 0 ∧
      ((gpu_chebyshev_2x chainH (fun _ => 1) (fun _ => 0) (fun _ => 2) (fun _ => 3)
          (fun i => i) (fun _ => 2) (fun i => 2 * i) (fun _ => 5)
          (fun _ => 0) (fun _ => 0) (fun _ => 0) (fun _ => 0)
          (fun _ => 10) (fun _ => 20) 6 3).1 0
          = 2 * (applySite chainH (fun i => i) (fun _ => 2) 0).1 - 1 ∧
        (gpu_chebyshev_2x chainH (fun _ => 1) (fun _ => 0) (fun _ => 2) (fun _ => 3)
          (fun i => i) (fun _ => 2) (fun i => 2 * i) (fun _ => 5)
          (fun _ => 0) (fun _ => 0) (fun _ => 0) (fun _ => 0)
          (fun _ => 10) (fun _ => 20) 6 3).2.1 0
          = 2 * (applySite chainH (fun i => i) (fun _ => 2) 0).2 - 0 ∧
        (gpu_chebyshev_2x chainH (fun _ => 1) (fun _ => 0) (fun _ => 2) (fun _ => 3)
          (fun i => i) (fun _ => 2) (fun i => 2 * i) (fun _ => 5)
          (fun _ => 0) (fun _ => 0) (fun _ => 0) (fun _ => 0)
          (fun _ => 10) (fun _ => 20) 6 3).2.2.1 0
          = 2 * ((applySite chainH (fun i => 2 * i) (fun _ => 5) 0).1 +
              (commutatorSite chainH (fun i => i) (fun _ => 2) 0).1) - 2 ∧
        (gpu_chebyshev_2x chainH (fun _ => 1) (fun _ => 0) (fun _ => 2) (fun _ => 3)
          (fun i => i) (fun _ => 2) (fun i => 2 * i) (fun _ => 5)
          (fun _ => 0) (fun _ => 0) (fun _ => 0) (fun _ => 0)
          (fun _ => 10) (fun _ => 20) 6 3).2.2.2.1 0
          = 2 * ((applySite chainH (fun i => 2 * i) (fun _ => 5) 0).2 +
              (commutatorSite chainH (fun i => i) (fun _ => 2) 0).2) - 3 ∧
        ((gpu_chebyshev_2x chainH (fun _ => 1) (fun _ => 0) (fun _ => 2) (fun _ => 3)
            (fun i => i) (fun _ => 2) (fun i => 2 * i) (fun _ => 5)
            (fun _ => 0) (fun _ => 0) (fun _ => 0) (fun _ => 0)
            (fun _ => 10) (fun _ => 20) 6 3).2.2.2.2.1 0,
         (gpu_chebyshev_2x chainH (fun _ => 1) (fun _ => 0) (fun _ => 2) (fun _ => 3)
            (fun i => i) (fun _ => 2) (fun i => 2 * i) (fun _ => 5)
            (fun _ => 0) (fun _ => 0) (fun _ => 0) (fun _ => 0)
            (fun _ => 10) (fun _ => 20) 6 3).2.2.2.2.2 0)
          = routeAcc 3 6
              ((gpu_chebyshev_2x chainH (fun _ => 1) (fun _ => 0) (fun _ => 2) (fun _ => 3)
                  (fun i => i) (fun _ => 2) (fun i => 2 * i) (fun _ => 5)
                  (fun _ => 0) (fun _ => 0) (fun _ => 0) (fun _ => 0)
                  (fun _ => 10) (fun _ => 20) 6 3).2.2.1 0)
              ((gpu_chebyshev_2x chainH (fun _ => 1) (fun _ => 0) (fun _ => 2) (fun _ => 3)
                  (fun i => i) (fun _ => 2) (fun i => 2 * i) (fun _ => 5)
                  (fun _ => 0) (fun _ => 0) (fun _ => 0) (fun _ => 0)
                  (fun _ => 10) (fun _ => 20) 6 3).2.2.2.1 0)
              10 20) :=
  ⟨by decide, by decide,
   chebyshev_2x_step_correct chainH (by decide) (by decide)
     (fun _ => 1) (fun _ => 0) (fun _ => 2) (fun _ => 3)
     (fun i => i) (fun _ => 2) (fun i => 2 * i) (fun _ => 5)
     (fun _ => 0) (fun _ => 0) (fun _ => 0) (fun _ => 0)
     (fun _ => 10) (fun _ => 20) 6 3 0 (by decide)⟩

/-- Claim C10: for a label outside one to four the switch in both
`gpu_chebyshev_2` and `gpu_chebyshev_2x` falls through: the accumulator is
unchanged at every index of both channels, while the recursion terms are
written exactly as for the valid label one. -/
theorem unknown_label_skips_accumulation (H : Ham)
    (s0R s0I s0xR s0xI s1R s1I s1xR s1xI s2R s2I s2xR s2xI stR stI : ℕ → ℚ)
    (bessel_m : ℚ) (label : ℤ)
    (h1 : label ≠ 1) (h2 : label ≠ 2) (h3 : label ≠ 3) (h4 : label ≠ 4) :
    ((∀ n, (gpu_chebyshev_2 H s0R s0I s1R s1I s2R s2I stR stI bessel_m label).2.2.1 n = stR n ∧
        (gpu_chebyshev_2 H s0R s0I s1R s1I s2R s2I stR stI bessel_m label).2.2.2 n = stI n) ∧
      (gpu_chebyshev_2 H s0R s0I s1R s1I s2R s2I stR stI bessel_m label).1
        = (gpu_chebyshev_2 H s0R s0I s1R s1I s2R s2I stR stI bessel_m 1).1 ∧
      (gpu_chebyshev_2 H s0R s0I s1R s1I s2R s2I stR stI bessel_m label).2.1
        = (gpu_chebyshev_2 H s0R s0I s1R s1I s2R s2I stR stI bessel_m 1).2.1) ∧
    ((∀ n, (gpu_chebyshev_2x H s0R s0I s0xR s0xI s1R s1I s1xR s1xI s2R s2I s2xR s2xI stR stI bessel_m label).2.2.2.2.1 n = stR n ∧
        (gpu_chebyshev_2x H s0R s0I s0xR s0xI s1R s1I s1xR s1xI s2R s2I s2xR s2xI stR stI bessel_m label).2.2.2.2.2 n = stI n) ∧
      (gpu_chebyshev_2x H s0R s0I s0xR s0xI s1R s1I s1xR s1xI s2R s2I s2xR s2xI stR stI bessel_m label).1
        = (gpu_chebyshev_2x H s0R s0I s0xR s0xI s1R s1I s1xR s1xI s2R s2I s2xR s2xI stR stI bessel_m 1).1 ∧
      (gpu_chebyshev_2x H s0R s0I s0xR s0xI s1R s1I s1xR s1xI s2R s2I s2xR s2xI stR stI bessel_m label).2.1
        = (gpu_chebyshev_2x H s0R s0I s0xR s0xI s1R s1I s1xR s1xI s2R s2I s2xR s2xI stR stI bessel_m 1).2.1 ∧
      (gpu_chebyshev_2x H s0R s0I s0xR s0xI s1R s1I s1xR s1xI s2R s2I s2xR s2xI stR stI bessel_m label).2.2.1
        = (gpu_chebyshev_2x H s0R s0I s0xR s0xI s1R s1I s1xR s1xI s2R s2I s2xR s2xI stR stI bessel_m 1).2.2.1 ∧
      (gpu_chebyshev_2x H s0R s0I s0xR s0xI s1R s1I s1xR s1xI s2R s2I s2xR s2xI stR stI bessel_m label).2.2.2.1
        = (gpu_chebyshev_2x H s0R s0I s0xR s0xI s1R s1I s1xR s1xI s2R s2I s2xR s2xI stR stI bessel_m 1).2.2.2.1) := by
  refine ⟨⟨fun n => ?_, rfl, rfl⟩, ⟨fun n => ?_, rfl, rfl, rfl, rfl⟩⟩ <;>
    · by_cases hn : n < H.number_of_atoms
      · simp [gpu_chebyshev_2, gpu_chebyshev_2x, cheb2Site, cheb2xSite,
          routeAcc, hn, h1, h2, h3, h4]
      · simp [gpu_chebyshev_2, gpu_chebyshev_2x, hn]

theorem unknown_label_skips_accumulation_witness :
    (0 : ℤ) ≠ 1 ∧ (0 : ℤ) ≠ 2 ∧ (0 : ℤ) ≠ 3 ∧ (0 : ℤ) ≠ 4 ∧
      (gpu_chebyshev_2 chainH (fun _ => 1) (fun _ => 0) (fun i => i) (fun _ => 2)
          (fun _ => 0) (fun _ => 0) (fun _ => 10) (fun _ => 20) 6 0).2.2.1 0 = 10 ∧
      (gpu_chebyshev_2 chainH (fun _ => 1) (fun _ => 0) (fun i => i) (fun _ => 2)
          (fun _ => 0) (fun _ => 0) (fun _ => 10) (fun _ => 20) 6 0).2.2.2 0 = 20 ∧
      (gpu_chebyshev_2x chainH (fun _ => 1) (fun _ => 0) (fun _ => 2) (fun _ => 3)
          (fun i => i) (fun _ => 2) (fun i => 2 * i) (fun _ => 5)
          (fun _ => 0) (fun _ => 0) (fun _ => 0) (fun _ => 0)
          (fun _ => 10) (fun _ => 20) 6 0).2.2.2.2.1 1 = 10 ∧
      (gpu_chebyshev_2 chainH (fun _ => 1) (fun _ => 0) (fun i => i) (fun _ => 2)
          (fun _ => 0) (fun _ => 0) (fun _ => 10) (fun _ => 20) 6 0).1
        = (gpu_chebyshev_2 chainH (fun _ => 1) (fun _ => 0) (fun i => i) (fun _ => 2)
            (fun _ => 0) (fun _ => 0) (fun _ => 10) (fun _ => 20) 6 1).1 :=
  ⟨by decide, by decide, by decide, by decide,
   ((unknown_label_skips_accumulation chainH (fun _ => 1) (fun _ => 0)
       (fun _ => 2) (fun _ => 3) (fun i => i) (fun _ => 2) (fun i => 2 * i)
       (fun _ => 5) (fun _ => 0) (fun _ => 0) (fun _ => 0) (fun _ => 0)
       (fun _ => 10) (fun _ => 20) 6 0 (by decide) (by decide) (by decide)
       (by decide)).1.1 0).1,
   ((unknown_label_skips_accumulation chainH (fun _ => 1) (fun _ => 0)
       (fun _ => 2) (fun _ => 3) (fun i => i) (fun _ => 2) (fun i => 2 * i)
       (fun _ => 5) (fun _ => 0) (fun _ => 0) (fun _ => 0) (fun _ => 0)
       (fun _ => 10) (fun _ => 20) 6 0 (by decide) (by decide) (by decide)
       (by decide)).1.1 0).2,
   ((unknown_label_skips_accumulation chainH (fun _ => 1) (fun _ => 0)
       (fun _ => 2) (fun _ => 3) (fun i => i) (fun _ => 2) (fun i => 2 * i)
       (fun _ => 5) (fun _ => 0) (fun _ => 0) (fun _ => 0) (fun _ => 0)
       (fun _ => 10) (fun _ => 20) 6 0 (by decide) (by decide) (by decide)
       (by decide)).2.1 1).1,
   (unknown_label_skips_accumulation chainH (fun _ => 1) (fun _ => 0)
       (fun _ => 2) (fun _ => 3) (fun i => i) (fun _ => 2) (fun i => 2 * i)
       (fun _ => 5) (fun _ => 0) (fun _ => 0) (fun _ => 0) (fun _ => 0)
       (fun _ => 10) (fun _ => 20) 6 0 (by decide) (by decide) (by decide)
       (by decide)).1.2.1⟩

/-- The inner product named by the spec: the sum over sites `i` below `N`
of `conj(x_i) * y_i`, a complex scalar. -/
def innerSum (N : ℕ) (xR xI yR yI : ℕ → ℚ) : ℚ × ℚ :=
  ∑ i ∈ Finset.range N, cmul (cconj (stateAt xR xI i)) (stateAt yR yI i)

lemma cmul_add (z u v : ℚ × ℚ) : cmul z (u + v) = cmul z u + cmul z v := by
  unfold cmul
  refine Prod.ext ?_ ?_ <;>
    simp only [Prod.fst_add, Prod.snd_add] <;> ring

lemma add_cmul (u v z : ℚ × ℚ) : cmul (u + v) z = cmul u z + cmul v z := by
  unfold cmul
  refine Prod.ext ?_ ?_ <;>
    simp only [Prod.fst_add, Prod.snd_add] <;> ring

lemma cconj_add (u v : ℚ × ℚ) : cconj (u + v) = cconj u + cconj v := by
  unfold cconj
  refine Prod.ext ?_ ?_ <;>
    simp only [Prod.fst_add, Prod.snd_add] <;> ring

lemma cmul_cdivr_right (z w : ℚ × ℚ) (e : ℚ) :
    cmul z (cdivr w e) = cdivr (cmul z w) e := by
  unfold cmul cdivr
  refine Prod.ext ?_ ?_ <;> dsimp only <;> ring

lemma cmul_cdivr_left (w z : ℚ × ℚ) (e : ℚ) :
    cmul (cdivr w e) z = cdivr (cmul w z) e := by
  unfold cmul cdivr
  refine Prod.ext ?_ ?_ <;> dsimp only <;> ring

lemma cconj_cdivr (w : ℚ × ℚ) (e : ℚ) :
    cconj (cdivr w e) = cdivr (cconj w) e := by
  unfold cconj cdivr
  refine Prod.ext ?_ ?_ <;> dsimp only <;> ring

lemma sum_cdivr {α : Type} (s : Finset α) (f : α → ℚ × ℚ) (e : ℚ) :
    ∑ i ∈ s, cdivr (f i) e = cdivr (∑ i ∈ s, f i) e := by
  unfold cdivr
  refine Prod.ext ?_ ?_ <;>
    simp [Prod.fst_sum, Prod.snd_sum, Finset.sum_div]

lemma cmul_sum {α : Type} (z : ℚ × ℚ) (s : Finset α) (f : α → ℚ × ℚ) :
    cmul z (∑ i ∈ s, f i) = ∑ i ∈ s, cmul z (f i) := by
  unfold cmul
  refine Prod.ext ?_ ?_ <;>
    simp [Prod.fst_sum, Prod.snd_sum, Finset.mul_sum,
      Finset.sum_add_distrib, Finset.sum_sub_distrib]

lemma sum_cmul {α : Type} (s : Finset α) (f : α → ℚ × ℚ) (z : ℚ × ℚ) :
    cmul (∑ i ∈ s, f i) z = ∑ i ∈ s, cmul (f i) z := by
  unfold cmul
  refine Prod.ext ?_ ?_ <;>
    simp [Prod.fst_sum, Prod.snd_sum, Finset.sum_mul,
      Finset.sum_add_distrib, Finset.sum_sub_distrib]

lemma cconj_sum {α : Type} (s : Finset α) (f : α → ℚ × ℚ) :
    cconj (∑ i ∈ s, f i) = ∑ i ∈ s, cconj (f i) := by
  unfold cconj
  refine Prod.ext ?_ ?_ <;>
    simp [Prod.fst_sum, Prod.snd_sum]

lemma cmul_real_shuffle (p : ℚ) (x y : ℚ × ℚ) :
    cmul (cconj x) (cmul (p, 0) y) = cmul (cconj (cmul (p, 0) x)) y := by
  unfold cmul cconj
  refine Prod.ext ?_ ?_ <;> dsimp only <;> ring

lemma cmul_conj_shuffle (t x y : ℚ × ℚ) :
    cmul (cconj x) (cmul t y) = cmul (cconj (cmul (cconj t) x)) y := by
  unfold cmul cconj
  refine Prod.ext ?_ ?_ <;> dsimp only <;> ring

/-- A one-site lattice with no edges, unit potential and `energy_max = 1`:
its (empty) edge table is Hermitian. -/
def oneH : Ham where
  number_of_atoms := 1
  energy_max := 1
  neighbor_number := fun _ => 0
  neighbor_list := fun _ => 0
  potential := fun _ => 1
  hopping_real := fun _ => 0
  hopping_imag := fun _ => 0
  xx := fun _ => 0

/-- An explicit pairing witnessing that a lattice's edge table is
Hermitian: every stored edge slot `(i, k)` with `i` below the site count
and `k` below `neighbor_number i` has a reverse slot `pair i k` at the
stored neighbor, pointing back at `i`, carrying the conjugate hopping
amplitude, and the pairing is an involution on stored slots. -/
structure HermSymm (H : Ham) where
  pair : ℕ → ℕ → ℕ
  nbr_lt : ∀ i k, i < H.number_of_atoms → k < H.neighbor_number i →
    nbr H k i < H.number_of_atoms
  pair_lt : ∀ i k, i < H.number_of_atoms → k < H.neighbor_number i →
    pair i k < H.neighbor_number (nbr H k i)
  nbr_pair : ∀ i k, i < H.number_of_atoms → k < H.neighbor_number i →
    nbr H (pair i k) (nbr H k i) = i
  hop_conj : ∀ i k, i < H.number_of_atoms → k < H.neighbor_number i →
    hop H (pair i k) (nbr H k i) = cconj (hop H k i)
  pair_pair : ∀ i k, i < H.number_of_atoms → k < H.neighbor_number i →
    pair (nbr H k i) (pair i k) = k

/-- The empty edge table of `oneH` is Hermitian (vacuously). -/
def hermOne : HermSymm oneH where
  pair := fun _ _ => 0
  nbr_lt := fun i k _ hk => absurd hk (Nat.not_lt_zero k)
  pair_lt := fun i k _ hk => absurd hk (Nat.not_lt_zero k)
  nbr_pair := fun i k _ hk => absurd hk (Nat.not_lt_zero k)
  hop_conj := fun i k _ hk => absurd hk (Nat.not_lt_zero k)
  pair_pair := fun i k _ hk => absurd hk (Nat.not_lt_zero k)

/-- Counterexample to claim C8 as stated: on the one-site Hermitian
lattice `oneH` (nonzero real `energy_max`, empty — hence Hermitian — edge
table), with `x = (1)` and `y = (i)`, the inner product
`Σ conj(x_i) * (apply y)_i` is `i` while the complex conjugate of
`Σ conj((apply x)_i) * y_i` is `-i`: the claimed identity fails.  (The
outer conjugation is the error: without it the two sums agree, which is
the amended statement proved below.) -/
theorem hermiticity_claim_counterexample :
    oneH.energy_max ≠ 0 ∧
      innerSum oneH.number_of_atoms (fun _ => 1) (fun _ => 0)
          (gpu_apply_hamiltonian oneH (fun _ => 0) (fun _ => 1)
            (fun _ => 0) (fun _ => 0)).1
          (gpu_apply_hamiltonian oneH (fun _ => 0) (fun _ => 1)
            (fun _ => 0) (fun _ => 0)).2
        ≠ cconj (innerSum oneH.number_of_atoms
            (gpu_apply_hamiltonian oneH (fun _ => 1) (fun _ => 0)
              (fun _ => 0) (fun _ => 0)).1
            (gpu_apply_hamiltonian oneH (fun _ => 1) (fun _ => 0)
              (fun _ => 0) (fun _ => 0)).2
            (fun _ => 0) (fun _ => 1)) := by
  refine ⟨by norm_num [oneH], ?_⟩
  norm_num [innerSum, oneH, gpu_apply_hamiltonian, applySite, stateAt,
    cmul, cconj, Finset.sum_range_succ, Prod.ext_iff]

/-- The edge set of a lattice: all pairs of a site below the site count
and a slot below that site's neighbor count. -/
def edgeSet (H : Ham) : Finset ((_ : ℕ) × ℕ) :=
  (Finset.range H.number_of_atoms).sigma
    (fun i => Finset.range (H.neighbor_number i))

lemma herm_edge_sum (H : Ham) (hs : HermSymm H) (xR xI yR yI : ℕ → ℚ) :
    ∑ e ∈ edgeSet H,
        cmul (cconj (stateAt xR xI e.1))
          (cmul (hop H e.2 e.1) (stateAt yR yI (nbr H e.2 e.1)))
      = ∑ e ∈ edgeSet H,
          cmul (cconj (cmul (hop H e.2 e.1) (stateAt xR xI (nbr H e.2 e.1))))
            (stateAt yR yI e.1) := by
  refine Finset.sum_nbij'
    (fun e => ⟨nbr H e.2 e.1, hs.pair e.1 e.2⟩)
    (fun e => ⟨nbr H e.2 e.1, hs.pair e.1 e.2⟩)
    ?_ ?_ ?_ ?_ ?_
  · rintro ⟨i, k⟩ he
    rw [edgeSet, Finset.mem_sigma, Finset.mem_range, Finset.mem_range] at he
    rw [edgeSet, Finset.mem_sigma, Finset.mem_range, Finset.mem_range]
    exact ⟨hs.nbr_lt i k he.1 he.2, hs.pair_lt i k he.1 he.2⟩
  · rintro ⟨i, k⟩ he
    rw [edgeSet, Finset.mem_sigma, Finset.mem_range, Finset.mem_range] at he
    rw [edgeSet, Finset.mem_sigma, Finset.mem_range, Finset.mem_range]
    exact ⟨hs.nbr_lt i k he.1 he.2, hs.pair_lt i k he.1 he.2⟩
  · rintro ⟨i, k⟩ he
    rw [edgeSet, Finset.mem_sigma, Finset.mem_range, Finset.mem_range] at he
    show (⟨nbr H (hs.pair i k) (nbr H k i),
        hs.pair (nbr H k i) (hs.pair i k)⟩ : (_ : ℕ) × ℕ) = ⟨i, k⟩
    rw [hs.nbr_pair i k he.1 he.2, hs.pair_pair i k he.1 he.2]
  · rintro ⟨i, k⟩ he
    rw [edgeSet, Finset.mem_sigma, Finset.mem_range, Finset.mem_range] at he
    show (⟨nbr H (hs.pair i k) (nbr H k i),
        hs.pair (nbr H k i) (hs.pair i k)⟩ : (_ : ℕ) × ℕ) = ⟨i, k⟩
    rw [hs.nbr_pair i k he.1 he.2, hs.pair_pair i k he.1 he.2]
  · rintro ⟨i, k⟩ he
    rw [edgeSet, Finset.mem_sigma, Finset.mem_range, Finset.mem_range] at he
    show cmul (cconj (stateAt xR xI i))
        (cmul (hop H k i) (stateAt yR yI (nbr H k i)))
      = cmul (cconj (cmul (hop H (hs.pair i k) (nbr H k i))
          (stateAt xR xI (nbr H (hs.pair i k) (nbr H k i)))))
          (stateAt yR yI (nbr H k i))
    rw [hs.hop_conj i k he.1 he.2, hs.nbr_pair i k he.1 he.2]
    exact cmul_conj_shuffle (hop H k i) (stateAt xR xI i)
      (stateAt yR yI (nbr H k i))

lemma inner_apply_expand_right (H : Ham) (uR uI vR vI outR outI : ℕ → ℚ) :
    innerSum H.number_of_atoms uR uI
        (gpu_apply_hamiltonian H vR vI outR outI).1
        (gpu_apply_hamiltonian H vR vI outR outI).2
      = cdivr
          ((∑ i ∈ Finset.range H.number_of_atoms,
              cmul (cconj (stateAt uR uI i))
                (cmul (H.potential i, 0) (stateAt vR vI i))) +
            ∑ e ∈ edgeSet H,
              cmul (cconj (stateAt uR uI e.1))
                (cmul (hop H e.2 e.1) (stateAt vR vI (nbr H e.2 e.1))))
          H.energy_max := by
  unfold innerSum
  have step : ∀ i ∈ Finset.range H.number_of_atoms,
      cmul (cconj (stateAt uR uI i))
        (stateAt (gpu_apply_hamiltonian H vR vI outR outI).1
          (gpu_apply_hamiltonian H vR vI outR outI).2 i)
      = cdivr (cmul (cconj (stateAt uR uI i))
          (cmul (H.potential i, 0) (stateAt vR vI i) +
            ∑ k ∈ Finset.range (H.neighbor_number i),
              cmul (hop H k i) (stateAt vR vI (nbr H k i))))
          H.energy_max := by
    intro i hi
    rw [Finset.mem_range] at hi
    have h12 : stateAt (gpu_apply_hamiltonian H vR vI outR outI).1
        (gpu_apply_hamiltonian H vR vI outR outI).2 i = applySpec H vR vI i := by
      unfold stateAt gpu_apply_hamiltonian
      simp only [if_pos hi]
      rw [← applySite_eq_applySpec]
    rw [h12, applySpec, cmul_cdivr_right]
  rw [Finset.sum_congr rfl step, sum_cdivr]
  congr 1
  have split : ∀ i ∈ Finset.range H.number_of_atoms,
      cmul (cconj (stateAt uR uI i))
        (cmul (H.potential i, 0) (stateAt vR vI i) +
          ∑ k ∈ Finset.range (H.neighbor_number i),
            cmul (hop H k i) (stateAt vR vI (nbr H k i)))
      = cmul (cconj (stateAt uR uI i))
          (cmul (H.potential i, 0) (stateAt vR vI i)) +
        ∑ k ∈ Finset.range (H.neighbor_number i),
          cmul (cconj (stateAt uR uI i))
            (cmul (hop H k i) (stateAt vR vI (nbr H k i))) := by
    intro i _
    rw [cmul_add, cmul_sum]
  rw [Finset.sum_congr rfl split, Finset.sum_add_distrib]
  congr 1
  simp only [edgeSet]
  exact Finset.sum_sigma' _ _ _

lemma inner_apply_expand_left (H : Ham) (uR uI vR vI outR outI : ℕ → ℚ) :
    innerSum H.number_of_atoms
        (gpu_apply_hamiltonian H uR uI outR outI).1
        (gpu_apply_hamiltonian H uR uI outR outI).2 vR vI
      = cdivr
          ((∑ i ∈ Finset.range H.number_of_atoms,
              cmul (cconj (cmul (H.potential i, 0) (stateAt uR uI i)))
                (stateAt vR vI i)) +
            ∑ e ∈ edgeSet H,
              cmul (cconj (cmul (hop H e.2 e.1) (stateAt uR uI (nbr H e.2 e.1))))
                (stateAt vR vI e.1))
          H.energy_max := by
  unfold innerSum
  have step : ∀ i ∈ Finset.range H.number_of_atoms,
      cmul (cconj (stateAt (gpu_apply_hamiltonian H uR uI outR outI).1
          (gpu_apply_hamiltonian H uR uI outR outI).2 i))
        (stateAt vR vI i)
      = cdivr (cmul
          (cconj (cmul (H.potential i, 0) (stateAt uR uI i)) +
            ∑ k ∈ Finset.range (H.neighbor_number i),
              cconj (cmul (hop H k i) (stateAt uR uI (nbr H k i))))
          (stateAt vR vI i))
          H.energy_max := by
    intro i hi
    rw [Finset.mem_range] at hi
    have h12 : stateAt (gpu_apply_hamiltonian H uR uI outR outI).1
        (gpu_apply_hamiltonian H uR uI outR outI).2 i = applySpec H uR uI i := by
      unfold stateAt gpu_apply_hamiltonian
      simp only [if_pos hi]
      rw [← applySite_eq_applySpec]
    rw [h12, applySpec, cconj_cdivr, cmul_cdivr_left, cconj_add, cconj_sum]
  rw [Finset.sum_congr rfl step, sum_cdivr]
  congr 1
  have split : ∀ i ∈ Finset.range H.number_of_atoms,
      cmul (cconj (cmul (H.potential i, 0) (stateAt uR uI i)) +
          ∑ k ∈ Finset.range (H.neighbor_number i),
            cconj (cmul (hop H k i) (stateAt uR uI (nbr H k i))))
        (stateAt vR vI i)
      = cmul (cconj (cmul (H.potential i, 0) (stateAt uR uI i)))
          (stateAt vR vI i) +
        ∑ k ∈ Finset.range (H.neighbor_number i),
          cmul (cconj (cmul (hop H k i) (stateAt uR uI (nbr H k i))))
            (stateAt vR vI i) := by
    intro i _
    rw [add_cmul, sum_cmul]
  rw [Finset.sum_congr rfl split, Finset.sum_add_distrib]
  congr 1
  simp only [edgeSet]
  exact Finset.sum_sigma' _ _ _

/-- Claim C8 (amended): for a lattice with a Hermitian edge table and
nonzero `energy_max`, `Σ_i conj(x_i) * (apply y)_i` equals
`Σ_i conj((apply x)_i) * y_i` — without the outer complex conjugation
that the original claim applies to the right-hand side (the
counterexample above shows the conjugated form is false). -/
theorem hermiticity_amended (H : Ham) (hs : HermSymm H)
    (he : H.energy_max ≠ 0) (xR xI yR yI outR outI outR2 outI2 : ℕ → ℚ) :
    innerSum H.number_of_atoms xR xI
        (gpu_apply_hamiltonian H yR yI outR outI).1
        (gpu_apply_hamiltonian H yR yI outR outI).2
      = innerSum H.number_of_atoms
          (gpu_apply_hamiltonian H xR xI outR2 outI2).1
          (gpu_apply_hamiltonian H xR xI outR2 outI2).2 yR yI := by
  rw [inner_apply_expand_right, inner_apply_expand_left]
  congr 1
  refine congrArg₂ (· + ·) ?_ ?_
  · refine Finset.sum_congr rfl fun i _ => ?_
    exact cmul_real_shuffle (H.potential i) (stateAt xR xI i) (stateAt yR yI i)
  · exact herm_edge_sum H hs xR xI yR yI

/-- The two-site chain's edge table is Hermitian, with the identity slot
pairing. -/
def hermChain : HermSymm chainH where
  pair := fun _ _ => 0
  nbr_lt := by
    intro i k hi hk
    simp only [chainH] at hi hk
    rw [if_pos hi] at hk
    interval_cases i <;> interval_cases k <;> decide
  pair_lt := by
    intro i k hi hk
    simp only [chainH] at hi hk
    rw [if_pos hi] at hk
    interval_cases i <;> interval_cases k <;> decide
  nbr_pair := by
    intro i k hi hk
    simp only [chainH] at hi hk
    rw [if_pos hi] at hk
    interval_cases i <;> interval_cases k <;> decide
  hop_conj := by
    intro i k hi hk
    simp only [chainH] at hi hk
    rw [if_pos hi] at hk
    interval_cases i <;> interval_cases k <;> decide
  pair_pair := by
    intro i k hi hk
    simp only [chainH] at hi hk
    rw [if_pos hi] at hk
    interval_cases i <;> interval_cases k <;> decide

theorem hermiticity_amended_witness :
    chainH.energy_max ≠ 0 ∧
      innerSum chainH.number_of_atoms (fun _ => 1) (fun i => i)
          (gpu_apply_hamiltonian chainH (fun _ => 0) (fun _ => 1)
            (fun _ => 0) (fun _ => 0)).1
          (gpu_apply_hamiltonian chainH (fun _ => 0) (fun _ => 1)
            (fun _ => 0) (fun _ => 0)).2
        = innerSum chainH.number_of_atoms
            (gpu_apply_hamiltonian chainH (fun _ => 1) (fun i => i)
              (fun _ => 0) (fun _ => 0)).1
            (gpu_apply_hamiltonian chainH (fun _ => 1) (fun i => i)
              (fun _ => 0) (fun _ => 0)).2
            (fun _ => 0) (fun _ => 1) :=
  ⟨by decide,
   hermiticity_amended chainH hermChain (by decide)
     (fun _ => 1) (fun i => i) (fun _ => 0) (fun _ => 1)
     (fun _ => 0) (fun _ => 0) (fun _ => 0) (fun _ => 0)⟩

end GpuQt
